import Mathlib

set_option maxRecDepth 100000

/-!
Shallow embedding of the completion provider and graph-context retriever
(`src/vscode/src/completions/providers/google.ts`): the Gemini prompt
builder (`createPrompt`, `emptyPromptLength`, `postProcess`,
`createProvider`) and the `BfgRetriever` (workspace indexing, revision
tracking, RPC traces, `retrieve`).

JavaScript strings are modelled as Lean `String`/`List Char`; JS numbers
that take part in subtraction are modelled as `Int`; fallible code is
modelled with `Except`; RPC traffic is modelled as an explicit trace of
(method name, payload) pairs.
-/

/-- JS `s.startsWith(p)` over `List Char`: first argument the string,
second the candidate leading pattern. -/
def startsWithL : List Char → List Char → Bool
  | _, [] => true
  | [], _ :: _ => false
  | c :: cs, p :: ps => c == p && startsWithL cs ps

/-- JS `hay.includes(needle)` over `List Char`. -/
def containsSub (hay needle : List Char) : Bool :=
  startsWithL hay needle ||
    match hay with
    | [] => false
    | _ :: t => containsSub t needle

/-- JS `s.replaceAll(m, '')` for a fixed nonempty pattern `m`: a single
left-to-right scan removing non-overlapping occurrences, never rescanning
the text produced by a removal. -/
def removeAll (m s : List Char) : List Char :=
  match s with
  | [] => []
  | c :: rest =>
    if startsWithL (c :: rest) m ∧ m ≠ [] then
      removeAll m ((c :: rest).drop m.length)
    else
      c :: removeAll m rest
termination_by s.length
decreasing_by
  · rcases m with _ | ⟨p, ps⟩
    · simp at *
    · simpa using Nat.sub_lt (Nat.succ_pos _) (Nat.succ_pos _)
  · simp

/-- The FIM response marker `MARKERS.Response` = `<|fim|>`. -/
def fimMarker : List Char := ['<', '|', 'f', 'i', 'm', '|', '>']

/-- The suffix marker `MARKERS.Suffix` = `<|suffix|>`. -/
def sufMarker : List Char := ['<', '|', 's', 'u', 'f', 'f', 'i', 'x', '|', '>']

/-- Modelled from the spec: `fixBadCompletionStart`
(`../text-processing`, not under `src/`) strips leading noise characters
from the completion; modelled as dropping a leading run of
whitespace-like noise characters. -/
def fixBadCompletionStart (s : List Char) : List Char :=
  s.dropWhile fun c => c = ' ' ∨ c = '\n' ∨ c = '\t'

/-- `GoogleGeminiProvider.postProcess`: remove all occurrences of the
response marker, then all occurrences of the suffix marker (each a
single-pass `replaceAll`), then fix the completion start. -/
def postProcess (rawResponse : List Char) : List Char :=
  fixBadCompletionStart (removeAll sufMarker (removeAll fimMarker rawResponse))

/-- The inputs `createPrompt` reads from `options`: the document context
prefix/suffix text and the display path of the document. -/
structure PromptOpts where
  pre : String
  suf : String
  filePath : String

/-- A context snippet as consumed by `createPrompt`: its display path,
its optional symbol (a defined `symbol` field selects the symbol branch,
matching JS truthiness of the `PromptString` object), and its content. -/
structure CtxSnippet where
  uriPath : String
  symbol : Option String
  content : String

/-- JS `content.trimEnd()`: drop trailing whitespace. -/
def jsTrimEnd (s : String) : String :=
  ⟨(s.data.reverse.dropWhile fun c => c.isWhitespace).reverse⟩

/-- `GoogleGeminiProvider.createContext`: the fixed-shape block built for
one snippet. -/
def createContext (ty nm content : String) : String :=
  "\n-TYPE: " ++ ty ++ "\n-NAME: " ++ nm ++ "\n-CONTENT: " ++ jsTrimEnd content ++ "\n---\n"

/-- The `contextPrompt` built for a snippet inside the `createPrompt`
loop: `symbol`-typed when the snippet has a symbol, else `file`-typed
named by the snippet's display path. -/
def contextPromptOf (s : CtxSnippet) : String :=
  match s.symbol with
  | some sym => createContext "symbol" sym s.content
  | none => createContext "file" s.uriPath s.content

/-- The fill-in-the-middle region of the prompt:
`<|prefix|>${prefix}<|fim|>${suffix}<|suffix|>`. -/
def fimPromptOf (o : PromptOpts) : String :=
  "<|prefix|>" ++ o.pre ++ "<|fim|>" ++ o.suf ++ "<|suffix|>"

/-- The human-turn text of `createPrompt`, with `grouped` standing for
the (possibly empty) `groupedSnippets` slot. -/
def humanTextOf (o : PromptOpts) (grouped : String) : String :=
  "You are a code completion AI, designed to autofill code enclosed in special markers based on its surrounding context.\n"
    ++ grouped
    ++ "\n\nCode from " ++ o.filePath ++ " file:\n"
    ++ fimPromptOf o
    ++ "\n\nYour mission is to generate completed code that I can replace the <|fim|> markers with, ensuring a seamless and syntactically correct result.\n\nDo not repeat code from before and after <|fim|> in your output.\nMaintain consistency with the indentation, spacing, and coding style used in the code.\nLeave the output markers empty if no code is required to bridge the gap.\nYour response should contains only the code required to connect the gap, and the code must be enclosed between <|fim|> WITHOUT backticks"

/-- Modelled from the spec: `messagesToText` (`../utils`, not under
`src/`) renders the two human/assistant message turns, the assistant
turn pre-seeded with the opening `<|fim|>` delimiter, into one prompt
string. -/
def messagesToText (o : PromptOpts) (grouped : String) : String :=
  "Human: " ++ humanTextOf o grouped ++ "\n\nAssistant: " ++ "<|fim|>"

/-- `GoogleGeminiProvider.emptyPromptLength`: length of the prompt built
with no snippets, minus 10. -/
def emptyPromptLength (o : PromptOpts) : Int :=
  (messagesToText o "").length - 10

/-- The snippet-packing loop of `createPrompt`, returning the list of
`contextPrompt` blocks it concatenates onto `groupedSnippets`: a block is
appended only if it passes the budget/emptiness test, and the loop breaks
permanently at the first block that fails it. -/
def packSnippetBlocks (o : PromptOpts) (promptChars : Int) : List CtxSnippet → List String
  | [] => []
  | s :: rest =>
    let cp := contextPromptOf s
    if (cp.length : Int) + 1 > promptChars - emptyPromptLength o ∨ cp.length = 0 then
      []
    else
      cp :: packSnippetBlocks o promptChars rest

/-- `groupedSnippets` after the packing loop and the `Context:` wrapping
step (the wrapper is added only when at least one block was packed). -/
def groupedSnippetsOf (o : PromptOpts) (promptChars : Int) (snips : List CtxSnippet) : String :=
  let grouped := String.join (packSnippetBlocks o promptChars snips)
  if grouped.length ≠ 0 then "Context:\n" ++ grouped ++ "\n" else grouped

/-- The full prompt text produced by `createPrompt` for the given options,
character budget `promptChars`, and ranked snippet list. -/
def createPromptText (o : PromptOpts) (promptChars : Int) (snips : List CtxSnippet) : String :=
  messagesToText o (groupedSnippetsOf o promptChars snips)

/-- `SUPPORTED_GEMINI_MODELS`. -/
def SUPPORTED_GEMINI_MODELS : List String :=
  ["gemini-1.5-flash", "gemini-pro", "gemini-1.0-pro"]

/-- JS `s.includes(sub)`. -/
def jsIncludes (s sub : String) : Bool :=
  containsSub s.data sub.data

/-- The provider value constructed by `createProvider` on success. -/
structure GeminiProvider where
  id : String
  legacyModel : String
deriving DecidableEq

/-- `createProvider`: default the model name, accept it when it contains
one of the supported substrings, otherwise throw. -/
def createProvider (legacyModel : Option String) : Except String GeminiProvider :=
  let clientModel := legacyModel.getD "google/gemini-1.5-flash"
  if SUPPORTED_GEMINI_MODELS.any fun m => jsIncludes clientModel m then
    .ok { id := "google", legacyModel := clientModel }
  else
    .error ("Model " ++ clientModel ++ " is not supported by GeminiProvider")

/-- A JSON-like RPC payload value. -/
inductive JVal where
  | jnull
  | jbool (b : Bool)
  | jnum (n : Int)
  | jstr (s : String)
  | jarr (xs : List JVal)
  | jobj (fields : List (String × JVal))

/-- One RPC call to the external engine: method name and payload. -/
abbrev RpcCall := String × JVal

/-- `bfg.request('bfg/initialize', { clientName: 'vscode' })` issued by
`doLoadBFG`: the single spawn/handshake call of the session. -/
def loadBFGCalls : List RpcCall :=
  [("bfg/initialize", .jobj [("clientName", .jstr "vscode")])]

/-- The calls attempted by `indexEntry`: nothing when both parameters are
absent; the `gitRevision` request for a repository; the `workspace`
request for a workspace folder. A thrown `gitRevision` request
(`gitRpcFails`) skips the `workspace` request; the surrounding
`try`/`catch` swallows the error either way. -/
def indexEntryCalls (repository : Option (String × String)) (workspace : Option String)
    (gitRpcFails : Bool) : List RpcCall :=
  match repository, workspace with
  | none, none => []
  | _, _ =>
    let gitCalls := match repository with
      | some (uri, _) => [(("bfg/gitRevision/didChange" : String),
          JVal.jobj [("gitDirectoryUri", .jstr uri)])]
      | none => []
    let wsCalls := match workspace with
      | some w => [(("bfg/workspace/didChange" : String),
          JVal.jobj [("workspaceUri", .jstr w)])]
      | none => []
    if repository.isSome ∧ gitRpcFails then gitCalls else gitCalls ++ wsCalls

/-- The repository-URI → commit map `indexedRepositoryRevisions`,
as an insertion-ordered association list (JS `Map` semantics). -/
def RevMap := List (String × String)

/-- JS `Map.get`. -/
def mapGet (m : RevMap) (k : String) : Option String :=
  match m with
  | [] => none
  | (k', v) :: rest => if k' = k then some v else mapGet rest k

/-- JS `Map.set`: update in place when the key exists (keeping insertion
order), else append. -/
def mapSet (m : RevMap) (k v : String) : RevMap :=
  match m with
  | [] => [(k, v)]
  | (k', v') :: rest => if k' = k then (k, v) :: rest else (k', v') :: mapSet rest k v

/-- JS `Map.keys` in insertion order. -/
def mapKeys (m : RevMap) : List String := m.map Prod.fst

/-- `didChangeSimpleRepository`: when the observed commit differs from
the stored one, optimistically record the new commit and call
`indexEntry` with the repository; otherwise do nothing. Returns the new
map and the trace of attempted RPC calls. -/
def didChangeSimpleRepository (m : RevMap) (uri commit : String) (gitRpcFails : Bool) :
    RevMap × List RpcCall :=
  if mapGet m uri ≠ some commit then
    (mapSet m uri commit, indexEntryCalls (some (uri, commit)) none gitRpcFails)
  else
    (m, [])

/-- `isWorkspaceIndexed`: a folder URI counts as indexed when some key of
the revision map is a leading substring of it. -/
def isWorkspaceIndexed (m : RevMap) (uri : String) : Bool :=
  (mapKeys m).any fun key => startsWithL uri.data key.data

/-- `indexRemainingWorkspaceFolders`: for each workspace folder not
already covered by the containment check, call `indexEntry` with the
folder; indexed folders are skipped. Returns the trace of RPC calls
(`wsRpcFails` tells whether each workspace request throws; either way
the error is swallowed and the loop continues). -/
def indexRemainingWorkspaceFolders (folders : List String) (m : RevMap)
    (wsRpcFails : Bool) : List RpcCall :=
  (folders.filter fun u => ¬ isWorkspaceIndexed m u).flatMap fun u =>
    indexEntryCalls none (some u) wsRpcFails

/-- One identifier object returned by the identifier extractors, with
its JS object identity `oid` and its `symbolName` field. -/
structure IdentObj where
  oid : Nat
  symbolName : String
deriving DecidableEq

/-- Insertion loop of a JS `Set` over object elements: add each element
unless an element with the same object identity was already inserted. -/
def dedupGo (seen : List Nat) : List IdentObj → List IdentObj
  | [] => []
  | x :: xs => if x.oid ∈ seen then dedupGo seen xs else x :: dedupGo (x.oid :: seen) xs

/-- JS `Array.from(new Set(l))` over object elements: keep the first
occurrence of each object identity, in insertion order. -/
def jsSetDedup (l : List IdentObj) : List IdentObj :=
  dedupGo [] l

/-- Modelled from the spec: the identifier extractors
(`getLastNGraphContextIdentifiersFromString` /
`...FromDocument`, `../graph/identifiers`, not under `src/`) each return
up to N freshly constructed identifier objects for their source;
modelled as tagging the extracted names with fresh object identities
starting at `start`. -/
def freshIdents : List String → Nat → List IdentObj
  | [], _ => []
  | n :: ns, k => ⟨k, n⟩ :: freshIdents ns (k + 1)

/-- The `inputIdentifiers` computation of `retrieve`:
`Array.from(new Set([...fromString, ...fromDocument]))` over the two
extractor results (source (a) = last-candidate text, source (b) =
current document). -/
def inputIdentifiers (a b : List String) : List IdentObj :=
  jsSetDedup (freshIdents a 0 ++ freshIdents b a.length)

/-- The identifier names sent in the `bfg/contextForIdentifiers`
payload: `inputIdentifiers.map(r => r.symbolName)`. -/
def identifierNames (a b : List String) : List String :=
  (inputIdentifiers a b).map IdentObj.symbolName

/-- The dedup-by-name union the spec claims:
first-seen order, duplicate names dropped. -/
def specNameUnion (a b : List String) : List String :=
  (a ++ b).foldl (fun acc n => if n ∈ acc then acc else acc ++ [n]) []

/-- The retriever state `retrieve` consults: the sticky
`didFailLoading` flag and the liveness of the loaded process. -/
structure BfgState where
  didFailLoading : Bool
  isAlive : Bool

/-- JS truthiness of a payload value (`response.symbols || []`). -/
def jsTruthy : JVal → Bool
  | .jnull => false
  | .jbool b => b
  | .jnum n => n ≠ 0
  | .jstr s => s ≠ ""
  | .jarr _ => true
  | .jobj _ => true

/-- JS `typeof v === 'object'`: true for objects, arrays and `null`. -/
def typeofObject : JVal → Bool
  | .jnull => true
  | .jarr _ => true
  | .jobj _ => true
  | _ => false

/-- Field lookup on an object value; `none` models `undefined`. -/
def getField (v : JVal) (name : String) : Option JVal :=
  match v with
  | .jobj fields =>
    match fields.find? fun f => f.fst = name with
    | some f => some f.snd
    | none => none
  | _ => none

/-- The client-side enrichment of one BFG snippet:
`{ ...contextSnippet, identifier: BfgRetriever, uri: file(fileName) }`. -/
def convertSnippet (v : JVal) : JVal :=
  let fileName := match getField v "fileName" with
    | some (.jstr s) => s
    | _ => ""
  match v with
  | .jobj fields =>
    .jobj (fields ++ [("identifier", .jstr "bfg"), ("uri", .jstr ("file://" ++ fileName))])
  | _ => .jobj [("identifier", .jstr "bfg"), ("uri", .jstr ("file://" ++ fileName))]

/-- The `bfg/contextForIdentifiers` request payload built by `retrieve`. -/
def contextForIdentifiersCall (uri : String) (a b : List String) : RpcCall :=
  ("bfg/contextForIdentifiers", .jobj
    [ ("uri", .jstr uri),
      ("identifiers", .jarr ((identifierNames a b).map .jstr)),
      ("maxSnippets", .jnum 20),
      ("maxDepth", .jnum 4) ])

/-- The defensive handling of the `bfg/contextForIdentifiers` response
in `retrieve`: a non-object value yields the empty list, `null` throws on
field access (`typeof null === 'object'`), a missing or falsy `symbols`
field yields the empty list (`response.symbols || []`), an array is
converted snippet-wise, and mapping over a non-array throws. -/
def handleResponse (response : JVal) : Except String (List JVal) :=
  if ¬ typeofObject response then
    .ok []
  else if response matches .jnull then
    .error "TypeError"
  else
    match getField response "symbols" with
    | none => .ok []
    | some symbolsVal =>
      if ¬ jsTruthy symbolsVal then
        .ok []
      else
        match symbolsVal with
        | .jarr xs => .ok (xs.map convertSnippet)
        | _ => .error "TypeError: map is not a function"

/-- The body of `retrieve` inside its `try`: gate on the sticky failure
flag and on liveness, send the context request (its outcome supplied by
`oracle`), then defensively handle the response; `.error` models a
thrown exception reaching the `catch`. Returns the outcome and the
trace of RPC calls issued. -/
def retrieveBody (st : BfgState) (uri : String) (a b : List String)
    (oracle : Except String JVal) : Except String (List JVal) × List RpcCall :=
  if st.didFailLoading then
    (.ok [], [])
  else if ¬ st.isAlive then
    (.ok [], [])
  else
    (match oracle with
     | .error e => .error e
     | .ok response => handleResponse response,
     [contextForIdentifiersCall uri a b])

/-- `retrieve` with its surrounding `try`/`catch`: any thrown error is
logged and converted to an empty snippet list. -/
def retrieve (st : BfgState) (uri : String) (a b : List String)
    (oracle : Except String JVal) : List JVal × List RpcCall :=
  match retrieveBody st uri a b oracle with
  | (.ok xs, calls) => (xs, calls)
  | (.error _, calls) => ([], calls)

/-- `retrieve` viewed as a fallible computation after the `catch`:
the value the caller awaits. -/
def retrieveExc (st : BfgState) (uri : String) (a b : List String)
    (oracle : Except String JVal) : Except String (List JVal) :=
  .ok (retrieve st uri a b oracle).fst

/-- `dispose`: a best-effort `bfg/shutdown` request when loading
neither failed via the sticky flag nor rejected. -/
def disposeCalls (didFailLoading loadResolved : Bool) : List RpcCall :=
  if didFailLoading then []
  else if loadResolved then [("bfg/shutdown", .jnull)]
  else []

/-- The payload shapes of the five RPC methods the retriever issues
(§6 of the spec, with the method names the code actually uses). -/
def allowedCall : RpcCall → Bool
  | ("bfg/initialize", .jobj [("clientName", .jstr _)]) => true
  | ("bfg/gitRevision/didChange", .jobj [("gitDirectoryUri", .jstr _)]) => true
  | ("bfg/workspace/didChange", .jobj [("workspaceUri", .jstr _)]) => true
  | ("bfg/contextForIdentifiers", .jobj
      [("uri", .jstr _), ("identifiers", .jarr ids),
       ("maxSnippets", .jnum _), ("maxDepth", .jnum _)]) =>
    ids.all (fun v => v matches .jstr _)
  | ("bfg/shutdown", .jnull) => true
  | _ => false

/-- The method names §6 of the spec lists for the engine RPCs. -/
def specEngineMethods : List String :=
  ["engine/initialize", "engine/gitRevision/didChange", "engine/workspace/didChange",
   "engine/contextForIdentifiers", "engine/shutdown"]

/-- A decomposition of a raw model output into segments: a chunk of text
free of the marker-opening character `<`, a whole response marker, or a
whole suffix marker. Used to state for which raw outputs the single-pass
marker removal of `postProcess` leaves no marker behind. -/
inductive FimBlock where
  | text (s : List Char)
  | fim
  | suffixTok

/-- Render a block decomposition back into a raw output string. -/
def renderBlocks : List FimBlock → List Char
  | [] => []
  | .text s :: bs => s ++ renderBlocks bs
  | .fim :: bs => fimMarker ++ renderBlocks bs
  | .suffixTok :: bs => sufMarker ++ renderBlocks bs

/-- A block is good when any text chunk it holds contains no `<`. -/
def goodBlock : FimBlock → Bool
  | .text s => s.all (· != '<')
  | _ => true

/-- Keep the blocks other than the response marker. -/
def notFim : FimBlock → Bool
  | .fim => false
  | _ => true

/-- Keep the blocks other than the suffix marker. -/
def notSuf : FimBlock → Bool
  | .suffixTok => false
  | _ => true

/-- Text blocks. -/
def isText : FimBlock → Bool
  | .text _ => true
  | _ => false


theorem startsWithL_iff (s p : List Char) : startsWithL s p = true ↔ ∃ t, s = p ++ t := by
  induction p generalizing s with
  | nil => simp [startsWithL]
  | cons ph pt ih =>
    cases s with
    | nil => simp [startsWithL]
    | cons c cs =>
      simp only [startsWithL, Bool.and_eq_true, beq_iff_eq, ih, List.cons_append,
        List.cons.injEq]
      constructor
      · rintro ⟨rfl, t, rfl⟩
        exact ⟨t, rfl, rfl⟩
      · rintro ⟨t, rfl, rfl⟩
        exact ⟨rfl, t, rfl⟩

theorem containsSub_iff (hay needle : List Char) :
    containsSub hay needle = true ↔ ∃ p q, hay = p ++ needle ++ q := by
  induction hay with
  | nil =>
    simp only [containsSub, Bool.or_eq_true, startsWithL_iff]
    constructor
    · rintro (⟨t, ht⟩ | h)
      · exact ⟨[], t, by simpa using ht⟩
      · cases h
    · rintro ⟨p, q, hpq⟩
      have h := hpq.symm
      rw [List.append_assoc] at h
      rcases List.append_eq_nil.mp h with ⟨rfl, h2⟩
      exact Or.inl ⟨q, by simpa using hpq⟩
  | cons c t ih =>
    simp only [containsSub, Bool.or_eq_true, startsWithL_iff, ih]
    constructor
    · rintro (⟨q, hq⟩ | ⟨p, q, hpq⟩)
      · exact ⟨[], q, by simpa using hq⟩
      · exact ⟨c :: p, q, by simp [hpq]⟩
    · rintro ⟨p, q, hpq⟩
      cases p with
      | nil => exact Or.inl ⟨q, by simpa using hpq⟩
      | cons c' p' =>
        simp only [List.cons_append, List.cons.injEq] at hpq
        exact Or.inr ⟨p', q, hpq.2⟩

theorem mapGet_mapSet_self (m : RevMap) (k v : String) :
    mapGet (mapSet m k v) k = some v := by
  induction m with
  | nil => simp [mapSet, mapGet]
  | cons kv rest ih =>
    by_cases h : kv.fst = k
    · simp [mapSet, mapGet, h]
    · simp [mapSet, mapGet, h, ih]

theorem indexEntryCalls_repo (uri commit : String) (f : Bool) :
    indexEntryCalls (some (uri, commit)) none f =
      [("bfg/gitRevision/didChange", JVal.jobj [("gitDirectoryUri", JVal.jstr uri)])] := by
  cases f <;> simp [indexEntryCalls]

/-- C10: `createProvider` succeeds exactly when the (defaulted) model
name contains one of the supported substrings; on every other model name
it throws the unsupported-model error and constructs no provider. -/
theorem c10_createProvider_supported_models (lm : Option String) :
    ((createProvider lm).isOk = true ↔
      ∃ m ∈ SUPPORTED_GEMINI_MODELS, ∃ p q,
        (lm.getD "google/gemini-1.5-flash").data = p ++ m.data ++ q) ∧
    ((createProvider lm).isOk = false →
      createProvider lm = .error
        ("Model " ++ lm.getD "google/gemini-1.5-flash" ++ " is not supported by GeminiProvider")) := by
  by_cases h : (SUPPORTED_GEMINI_MODELS.any fun m => jsIncludes (lm.getD "google/gemini-1.5-flash") m) = true
  · have hok : createProvider lm = .ok
        { id := "google", legacyModel := lm.getD "google/gemini-1.5-flash" } := by
      rw [createProvider]
      exact if_pos h
    rw [List.any_eq_true] at h
    rcases h with ⟨m, hm, hinc⟩
    constructor
    · rw [hok]
      simp only [Except.isOk, Except.toBool, true_iff]
      exact ⟨m, hm, (containsSub_iff _ _).mp hinc⟩
    · intro hfalse
      rw [hok] at hfalse
      simp [Except.isOk, Except.toBool] at hfalse
  · have herr : createProvider lm = .error
        ("Model " ++ lm.getD "google/gemini-1.5-flash" ++ " is not supported by GeminiProvider") := by
      rw [createProvider]
      exact if_neg h
    rw [List.any_eq_true] at h
    push_neg at h
    constructor
    · rw [herr]
      simp only [Except.isOk, Except.toBool, Bool.false_eq_true, false_iff]
      rintro ⟨m, hm, p, q, hpq⟩
      exact absurd ((containsSub_iff _ _).mpr ⟨p, q, hpq⟩) (by simpa using h m hm)
    · intro _
      exact herr

/-- Witness for C10 at concrete inputs. -/
theorem c10_createProvider_supported_models_witness :
    (createProvider (some "anthropic/claude")).isOk = false ∧
    createProvider (some "anthropic/claude") =
      .error "Model anthropic/claude is not supported by GeminiProvider" := by
  refine ⟨by decide, ?_⟩
  exact (c10_createProvider_supported_models (some "anthropic/claude")).2 (by decide)

/-- C8: a workspace folder is reported indexed exactly when some URI in
the indexed-repository map is a string prefix of the folder URI
(containment, not equality); in particular folder `/repo/sub` with
indexed repository `/repo` is reported indexed and triggers no
`workspace/didChange` call. -/
theorem c8_workspace_indexed_by_containment :
    (∀ (m : RevMap) (u : String),
      isWorkspaceIndexed m u = true ↔ ∃ k ∈ mapKeys m, ∃ t, u.data = k.data ++ t) ∧
    (isWorkspaceIndexed [("/repo", "c0ffee")] "/repo/sub" = true ∧
      indexRemainingWorkspaceFolders ["/repo/sub"] [("/repo", "c0ffee")] false = []) := by
  refine ⟨?_, by decide, by rfl⟩
  intro m u
  rw [isWorkspaceIndexed, List.any_eq_true]
  constructor
  · rintro ⟨k, hk, hsw⟩
    exact ⟨k, hk, (startsWithL_iff _ _).mp hsw⟩
  · rintro ⟨k, hk, t, ht⟩
    exact ⟨k, hk, (startsWithL_iff _ _).mpr ⟨t, ht⟩⟩

/-- C6: re-observing a (repository, commit) pair whose commit equals the
stored one triggers no `gitRevision/didChange` call; a call is triggered
exactly when the observed commit differs from the stored one. -/
theorem c6_revision_idempotence :
    (∀ (m : RevMap) (uri commit : String) (f f' : Bool),
      (didChangeSimpleRepository
        (didChangeSimpleRepository m uri commit f).fst uri commit f').snd = []) ∧
    (∀ (m : RevMap) (uri commit : String) (f : Bool),
      (didChangeSimpleRepository m uri commit f).snd ≠ [] →
        mapGet m uri ≠ some commit) ∧
    (∀ (m : RevMap) (uri commit : String) (f : Bool),
      mapGet m uri ≠ some commit →
        (didChangeSimpleRepository m uri commit f).snd =
          [("bfg/gitRevision/didChange", JVal.jobj [("gitDirectoryUri", JVal.jstr uri)])]) := by
  have hstep : ∀ (m : RevMap) (uri commit : String) (f : Bool),
      mapGet m uri = some commit → didChangeSimpleRepository m uri commit f = (m, []) := by
    intro m uri commit f h
    rw [didChangeSimpleRepository, if_neg (by simp [h])]
  have hstep' : ∀ (m : RevMap) (uri commit : String) (f : Bool),
      mapGet m uri ≠ some commit →
        didChangeSimpleRepository m uri commit f =
          (mapSet m uri commit, indexEntryCalls (some (uri, commit)) none f) := by
    intro m uri commit f h
    rw [didChangeSimpleRepository, if_pos h]
  refine ⟨?_, ?_, ?_⟩
  · intro m uri commit f f'
    by_cases h : mapGet m uri = some commit
    · rw [hstep m uri commit f h, hstep m uri commit f' h]
    · rw [hstep' m uri commit f h]
      rw [hstep _ uri commit f' (mapGet_mapSet_self m uri commit)]
  · intro m uri commit f hne h
    rw [hstep m uri commit f h] at hne
    exact absurd rfl hne
  · intro m uri commit f h
    rw [hstep' m uri commit f h]
    exact indexEntryCalls_repo uri commit f

/-- Witness for C6 at concrete inputs. -/
theorem c6_revision_idempotence_witness :
    mapGet ([] : RevMap) "file:///repo" ≠ some "abc" ∧
    (didChangeSimpleRepository [] "file:///repo" "abc" false).snd =
      [("bfg/gitRevision/didChange", JVal.jobj [("gitDirectoryUri", JVal.jstr "file:///repo")])] := by
  refine ⟨by decide, ?_⟩
  exact c6_revision_idempotence.2.2 [] "file:///repo" "abc" false (by decide)

/-- C7: when a new commit is observed, the repository→commit map records
the new commit whether or not the RPC fails (the update is optimistic,
never rolled back), and exactly one `gitRevision/didChange` call is
attempted (no retry). -/
theorem c7_optimistic_map_update (m : RevMap) (uri commit : String) (f : Bool) :
    mapGet m uri ≠ some commit →
      (didChangeSimpleRepository m uri commit f).fst = mapSet m uri commit ∧
      mapGet (didChangeSimpleRepository m uri commit f).fst uri = some commit ∧
      (didChangeSimpleRepository m uri commit f).snd =
        [("bfg/gitRevision/didChange", JVal.jobj [("gitDirectoryUri", JVal.jstr uri)])] := by
  intro h
  rw [didChangeSimpleRepository, if_pos (by simpa using h)]
  exact ⟨rfl, mapGet_mapSet_self m uri commit, indexEntryCalls_repo uri commit f⟩

/-- Witness for C7 with a failing RPC (`f = true`): the map still records
the new commit. -/
theorem c7_optimistic_map_update_witness :
    mapGet ([("file:///repo", "old")] : RevMap) "file:///repo" ≠ some "new" ∧
    mapGet (didChangeSimpleRepository [("file:///repo", "old")] "file:///repo" "new" true).fst
      "file:///repo" = some "new" := by
  refine ⟨by decide, ?_⟩
  exact (c7_optimistic_map_update [("file:///repo", "old")] "file:///repo" "new" true
    (by decide)).2.1

/-- C4: with the sticky `didFailLoading` flag set, every `retrieve` call
returns an empty snippet list and issues zero RPC calls (in particular
no new `bfg/initialize`): startup is never retried. -/
theorem c4_sticky_failure_short_circuit (alive : Bool) (uri : String) (a b : List String)
    (oracle : Except String JVal) :
    retrieve ⟨true, alive⟩ uri a b oracle = ([], []) := rfl

/-- C5: `retrieve` never throws to its caller: the value the caller
awaits is always a normal (`ok`) result, and a failed-loading state, a
dead process, a thrown RPC, or a non-object response all yield the empty
snippet list. -/
theorem c5_retrieve_never_throws (st : BfgState) (uri : String) (a b : List String)
    (oracle : Except String JVal) :
    (retrieveExc st uri a b oracle).isOk = true ∧
    (st.didFailLoading = true → (retrieve st uri a b oracle).fst = []) ∧
    (st.isAlive = false → (retrieve st uri a b oracle).fst = []) ∧
    (∀ e, oracle = .error e → (retrieve st uri a b oracle).fst = []) ∧
    (∀ v, oracle = .ok v → typeofObject v = false → (retrieve st uri a b oracle).fst = []) := by
  obtain ⟨dfl, alive⟩ := st
  refine ⟨rfl, ?_, ?_, ?_, ?_⟩
  · rintro rfl
    rfl
  · rintro rfl
    cases dfl <;> rfl
  · rintro e rfl
    cases dfl <;> cases alive <;> rfl
  · rintro v rfl hv
    cases dfl <;> cases alive <;>
      simp_all [retrieve, retrieveBody, handleResponse, hv]

/-- Witness for C5 at concrete inputs: a thrown RPC and a non-object
response both surface as a normal empty result. -/
theorem c5_retrieve_never_throws_witness :
    (retrieveExc ⟨false, true⟩ "file:///a.ts" [] [] (.error "transport error")).isOk = true ∧
    (retrieve ⟨false, true⟩ "file:///a.ts" [] [] (.error "transport error")).fst = [] ∧
    (retrieve ⟨false, true⟩ "file:///a.ts" [] [] (.ok (.jstr "garbage"))).fst = [] := by
  refine ⟨(c5_retrieve_never_throws ⟨false, true⟩ "file:///a.ts" [] [] (.error "transport error")).1,
    (c5_retrieve_never_throws ⟨false, true⟩ "file:///a.ts" [] [] (.error "transport error")).2.2.2.1
      "transport error" rfl, ?_⟩
  exact (c5_retrieve_never_throws ⟨false, true⟩ "file:///a.ts" [] []
    (.ok (.jstr "garbage"))).2.2.2.2 (.jstr "garbage") rfl (by decide)

theorem freshIdents_oid_bound (ns : List String) :
    ∀ (k : Nat) (x : IdentObj), x ∈ freshIdents ns k → k ≤ x.oid ∧ x.oid < k + ns.length := by
  induction ns with
  | nil =>
    intro k x hx
    simp [freshIdents] at hx
  | cons n rest ih =>
    intro k x hx
    rw [freshIdents] at hx
    rcases List.mem_cons.mp hx with rfl | hx'
    · simp
    · have := ih (k + 1) x hx'
      constructor
      · omega
      · simp only [List.length_cons]
        omega

theorem freshIdents_map_name (ns : List String) :
    ∀ k, (freshIdents ns k).map IdentObj.symbolName = ns := by
  induction ns with
  | nil => intro k; rfl
  | cons n rest ih => intro k; simp [freshIdents, ih]

theorem freshIdents_pairwise (ns : List String) :
    ∀ k, (freshIdents ns k).Pairwise fun x y => x.oid ≠ y.oid := by
  induction ns with
  | nil => intro k; exact List.Pairwise.nil
  | cons n rest ih =>
    intro k
    rw [freshIdents]
    refine List.Pairwise.cons ?_ (ih (k + 1))
    intro y hy
    have := freshIdents_oid_bound rest (k + 1) y hy
    simp only []
    omega

theorem dedupGo_of_disjoint (l : List IdentObj) :
    ∀ seen : List Nat, (∀ x ∈ l, x.oid ∉ seen) →
      l.Pairwise (fun x y => x.oid ≠ y.oid) → dedupGo seen l = l := by
  induction l with
  | nil => intro seen _ _; rfl
  | cons x xs ih =>
    intro seen hs hp
    rcases List.pairwise_cons.mp hp with ⟨hrel, hp'⟩
    rw [dedupGo, if_neg (hs x (List.mem_cons_self x xs))]
    congr 1
    refine ih (x.oid :: seen) ?_ hp'
    intro y hy
    rw [List.mem_cons]
    push_neg
    exact ⟨(hrel y hy).symm, hs y (List.mem_cons_of_mem x hy)⟩

theorem identifierNames_eq_append (a b : List String) :
    identifierNames a b = a ++ b := by
  have hdedup : jsSetDedup (freshIdents a 0 ++ freshIdents b a.length) =
      freshIdents a 0 ++ freshIdents b a.length := by
    rw [jsSetDedup]
    refine dedupGo_of_disjoint _ [] (by simp) ?_
    rw [List.pairwise_append]
    refine ⟨freshIdents_pairwise a 0, freshIdents_pairwise b a.length, ?_⟩
    intro x hx y hy
    have hxb := freshIdents_oid_bound a 0 x hx
    have hyb := freshIdents_oid_bound b a.length y hy
    omega
  rw [identifierNames, inputIdentifiers, hdedup, List.map_append,
    freshIdents_map_name, freshIdents_map_name]

/-- C2: the `Array.from(new Set(...))` step dedups by object identity,
which is a no-op on the freshly constructed identifier objects, so the
identifier list sent to the engine is the plain concatenation of the two
sources and duplicate names survive; on the spec's example the code
sends `[foo, bar, bar, baz]` where the claim promises
`[foo, bar, baz]`. -/
theorem c2_duplicate_identifier_names_survive :
    (∀ a b : List String, identifierNames a b = a ++ b) ∧
    identifierNames ["foo", "bar"] ["bar", "baz"] = ["foo", "bar", "bar", "baz"] ∧
    specNameUnion ["foo", "bar"] ["bar", "baz"] = ["foo", "bar", "baz"] := by
  refine ⟨identifierNames_eq_append, ?_, by decide⟩
  rw [identifierNames_eq_append]
  rfl

theorem allowedCall_git (uri : String) :
    allowedCall ("bfg/gitRevision/didChange", JVal.jobj [("gitDirectoryUri", JVal.jstr uri)])
      = true := rfl

theorem allowedCall_workspace (uri : String) :
    allowedCall ("bfg/workspace/didChange", JVal.jobj [("workspaceUri", JVal.jstr uri)])
      = true := rfl

theorem allowedCall_context (uri : String) (a b : List String) :
    allowedCall (contextForIdentifiersCall uri a b) = true := by
  show ((identifierNames a b).map JVal.jstr).all _ = true
  rw [List.all_eq_true]
  intro v hv
  rcases List.mem_map.mp hv with ⟨s, _, rfl⟩
  rfl

theorem indexEntryCalls_allowed (repo : Option (String × String)) (ws : Option String)
    (f : Bool) : ∀ c ∈ indexEntryCalls repo ws f, allowedCall c = true := by
  intro c hc
  rcases repo with _ | ⟨uri, commit⟩ <;> rcases ws with _ | w <;> cases f <;>
    simp [indexEntryCalls] at hc
  all_goals first
    | (subst hc; first | exact allowedCall_git _ | exact allowedCall_workspace _)
    | (rcases hc with rfl | rfl
       · exact allowedCall_git _
       · exact allowedCall_workspace _)

theorem retrieve_calls_allowed (st : BfgState) (uri : String) (a b : List String)
    (oracle : Except String JVal) :
    ∀ c ∈ (retrieve st uri a b oracle).snd, allowedCall c = true := by
  obtain ⟨dfl, alive⟩ := st
  have hsub : (retrieve ⟨dfl, alive⟩ uri a b oracle).snd = [] ∨
      (retrieve ⟨dfl, alive⟩ uri a b oracle).snd = [contextForIdentifiersCall uri a b] := by
    cases dfl
    · cases alive
      · left
        rfl
      · right
        rw [retrieve]
        rcases oracle with e | response
        · rfl
        · rcases h : handleResponse response with xs | e <;>
            simp [retrieveBody, h]
    · left
      rfl
  intro c hc
  rcases hsub with h | h <;> rw [h] at hc
  · cases hc
  · rcases List.mem_singleton.mp hc with rfl
    exact allowedCall_context uri a b

/-- C3 counterexample: the context query RPC the code issues uses the
method name `bfg/contextForIdentifiers`, which is none of the
`engine/...` method names the claim lists, even though an RPC is issued. -/
theorem c3_engine_method_names_counterexample :
    (retrieve ⟨false, true⟩ "file:///a.ts" ["foo"] ["bar"] (.ok (.jobj []))).snd.map Prod.fst
      = ["bfg/contextForIdentifiers"] ∧
    "bfg/contextForIdentifiers" ∉ specEngineMethods := by
  exact ⟨rfl, by decide⟩

/-- C3 amended: every RPC the retriever issues — spawn handshake,
repository/workspace indexing, context query, shutdown — uses exactly
the method names `bfg/initialize`, `bfg/gitRevision/didChange`,
`bfg/workspace/didChange`, `bfg/contextForIdentifiers`, `bfg/shutdown`
with the payload shapes of §6. -/
theorem c3_rpc_calls_wellformed :
    (∀ c ∈ loadBFGCalls, allowedCall c = true) ∧
    (∀ (repo : Option (String × String)) (ws : Option String) (f : Bool),
      ∀ c ∈ indexEntryCalls repo ws f, allowedCall c = true) ∧
    (∀ (m : RevMap) (uri commit : String) (f : Bool),
      ∀ c ∈ (didChangeSimpleRepository m uri commit f).snd, allowedCall c = true) ∧
    (∀ (folders : List String) (m : RevMap) (f : Bool),
      ∀ c ∈ indexRemainingWorkspaceFolders folders m f, allowedCall c = true) ∧
    (∀ (st : BfgState) (uri : String) (a b : List String) (oracle : Except String JVal),
      ∀ c ∈ (retrieve st uri a b oracle).snd, allowedCall c = true) ∧
    (∀ dfl lr : Bool, ∀ c ∈ disposeCalls dfl lr, allowedCall c = true) := by
  refine ⟨by decide, indexEntryCalls_allowed, ?_, ?_, retrieve_calls_allowed, ?_⟩
  · intro m uri commit f c hc
    rw [didChangeSimpleRepository] at hc
    by_cases h : mapGet m uri ≠ some commit
    · rw [if_pos h] at hc
      exact indexEntryCalls_allowed (some (uri, commit)) none f c hc
    · rw [if_neg h] at hc
      cases hc
  · intro folders m f c hc
    rw [indexRemainingWorkspaceFolders] at hc
    rcases List.mem_flatMap.mp hc with ⟨u, _, hcu⟩
    exact indexEntryCalls_allowed _ _ _ c hcu
  · intro dfl lr c hc
    cases dfl <;> cases lr <;> simp [disposeCalls] at hc
    subst hc
    rfl

/-- Witness for C3 at concrete calls from each operation. -/
theorem c3_rpc_calls_wellformed_witness :
    allowedCall ("bfg/initialize", JVal.jobj [("clientName", JVal.jstr "vscode")]) = true ∧
    allowedCall ("bfg/gitRevision/didChange",
      JVal.jobj [("gitDirectoryUri", JVal.jstr "file:///repo")]) = true ∧
    allowedCall ("bfg/shutdown", JVal.jnull) = true := by
  refine ⟨c3_rpc_calls_wellformed.1 _ (List.mem_singleton.mpr rfl), ?_,
    c3_rpc_calls_wellformed.2.2.2.2.2 false true _ (List.mem_singleton.mpr rfl)⟩
  exact c3_rpc_calls_wellformed.2.2.1 [] "file:///repo" "abc" false _ (by
    rw [didChangeSimpleRepository, if_pos (by decide), indexEntryCalls_repo]
    exact List.mem_singleton.mpr rfl)

/-- C1 counterexample: with document context (`pre`/`suf` empty, file
path `"f"`) and `promptChars` set 40 characters above the empty-prompt
length, a single packed snippet (block length 38, which passes the
`38 + 1 ≤ 40` budget test) yields a full prompt of length
`emptyPromptLength + 58`, exceeding the total character budget. -/
theorem c1_budget_invariant_counterexample :
    ((createPromptText ⟨"", "", "f"⟩ (emptyPromptLength ⟨"", "", "f"⟩ + 40)
        [⟨"u", none, "x"⟩]).length : Int)
      > emptyPromptLength ⟨"", "", "f"⟩ + 40 := by decide

/-- C1 amended: the packing loop bounds each packed snippet block
individually — every block it appends satisfies
`blockLength + 1 ≤ promptChars − emptyPromptLength` and is nonempty —
but the sum of packed blocks (hence the total prompt length) is not
bounded by `promptChars`. -/
theorem c1_each_packed_block_within_budget (o : PromptOpts) (promptChars : Int)
    (snips : List CtxSnippet) :
    ∀ b ∈ packSnippetBlocks o promptChars snips,
      (b.length : Int) + 1 ≤ promptChars - emptyPromptLength o ∧ b.length ≠ 0 := by
  induction snips with
  | nil =>
    intro b hb
    cases hb
  | cons s rest ih =>
    intro b hb
    rw [packSnippetBlocks] at hb
    by_cases h : ((contextPromptOf s).length : Int) + 1 > promptChars - emptyPromptLength o ∨
        (contextPromptOf s).length = 0
    · rw [if_pos h] at hb
      cases hb
    · rw [if_neg h] at hb
      push_neg at h
      rcases List.mem_cons.mp hb with rfl | hb'
      · exact ⟨by omega, h.2⟩
      · exact ih b hb'

/-- Witness for C1 at a concrete input: the single packed block passes
the per-block budget test. -/
theorem c1_each_packed_block_within_budget_witness :
    contextPromptOf ⟨"u", none, "x"⟩ ∈
      packSnippetBlocks ⟨"", "", "f"⟩ (emptyPromptLength ⟨"", "", "f"⟩ + 100)
        [⟨"u", none, "x"⟩] ∧
    ((contextPromptOf ⟨"u", none, "x"⟩).length : Int) + 1 ≤
      (emptyPromptLength ⟨"", "", "f"⟩ + 100) - emptyPromptLength ⟨"", "", "f"⟩ ∧
    (contextPromptOf ⟨"u", none, "x"⟩).length ≠ 0 := by
  have hmem : contextPromptOf ⟨"u", none, "x"⟩ ∈
      packSnippetBlocks ⟨"", "", "f"⟩ (emptyPromptLength ⟨"", "", "f"⟩ + 100)
        [⟨"u", none, "x"⟩] := by decide
  have h := c1_each_packed_block_within_budget ⟨"", "", "f"⟩
    (emptyPromptLength ⟨"", "", "f"⟩ + 100) [⟨"u", none, "x"⟩] _ hmem
  exact ⟨hmem, h.1, h.2⟩

theorem removeAll_nil (m : List Char) : removeAll m [] = [] := by
  rw [removeAll]

theorem removeAll_cons_match (m : List Char) (c : Char) (s : List Char)
    (h : startsWithL (c :: s) m = true) (hm : m ≠ []) :
    removeAll m (c :: s) = removeAll m ((c :: s).drop m.length) := by
  rw [removeAll, if_pos ⟨h, hm⟩]

theorem removeAll_cons_nomatch (m : List Char) (c : Char) (s : List Char)
    (h : startsWithL (c :: s) m = false) :
    removeAll m (c :: s) = c :: removeAll m s := by
  rw [removeAll, if_neg]
  rintro ⟨h1, -⟩
  rw [h] at h1
  cases h1

theorem startsWithL_append_self (p r : List Char) : startsWithL (p ++ r) p = true := by
  induction p with
  | nil => simp [startsWithL]
  | cons c cs ih => simp [startsWithL, ih]

theorem startsWithL_head_ne (c : Char) (s : List Char) (mh : Char) (mt : List Char)
    (hc : c ≠ mh) : startsWithL (c :: s) (mh :: mt) = false := by
  have hb : (c == mh) = false := beq_eq_false_iff_ne.mpr hc
  simp [startsWithL, hb]

theorem removeAll_marker_head (m r : List Char) (hm : m ≠ []) :
    removeAll m (m ++ r) = removeAll m r := by
  cases m with
  | nil => exact absurd rfl hm
  | cons c t =>
    rw [List.cons_append, removeAll_cons_match]
    · congr 1
      simp [List.drop_left]
    · rw [← List.cons_append]
      exact startsWithL_append_self (c :: t) r
    · exact hm

theorem removeAll_text_skip (m' l r : List Char) (hl : l.all (· != '<') = true) :
    removeAll ('<' :: m') (l ++ r) = l ++ removeAll ('<' :: m') r := by
  induction l with
  | nil => simp
  | cons c t ih =>
    have hc : c ≠ '<' := by
      simpa using List.all_eq_true.mp hl c (List.mem_cons_self c t)
    have ht : t.all (· != '<') = true :=
      List.all_eq_true.mpr fun x hx => List.all_eq_true.mp hl x (List.mem_cons_of_mem c hx)
    rw [List.cons_append, removeAll_cons_nomatch _ _ _ (startsWithL_head_ne c _ '<' m' hc),
      ih ht, List.cons_append]

theorem startsWithL_fim_ne (c : Char) (hc : c ≠ '<') (s : List Char) :
    startsWithL (c :: s) fimMarker = false :=
  startsWithL_head_ne c s '<' ['|', 'f', 'i', 'm', '|', '>'] hc

theorem startsWithL_suf_ne (c : Char) (hc : c ≠ '<') (s : List Char) :
    startsWithL (c :: s) sufMarker = false :=
  startsWithL_head_ne c s '<' ['|', 's', 'u', 'f', 'f', 'i', 'x', '|', '>'] hc

theorem startsWithL_suf_fim (r : List Char) :
    startsWithL (sufMarker ++ r) fimMarker = false := by
  simp only [sufMarker, fimMarker, List.cons_append, List.nil_append, startsWithL]
  simp

theorem removeAll_fim_skip_suf (r : List Char) :
    removeAll fimMarker (sufMarker ++ r) = sufMarker ++ removeAll fimMarker r := by
  have h0 : startsWithL ('<' :: '|' :: 's' :: 'u' :: 'f' :: 'f' :: 'i' :: 'x' :: '|' :: '>' :: r)
      fimMarker = false := by
    simpa [sufMarker] using startsWithL_suf_fim r
  show removeAll fimMarker
      ('<' :: '|' :: 's' :: 'u' :: 'f' :: 'f' :: 'i' :: 'x' :: '|' :: '>' :: r) = _
  rw [removeAll_cons_nomatch _ _ _ h0,
    removeAll_cons_nomatch _ _ _ (startsWithL_fim_ne '|' (by decide) _),
    removeAll_cons_nomatch _ _ _ (startsWithL_fim_ne 's' (by decide) _),
    removeAll_cons_nomatch _ _ _ (startsWithL_fim_ne 'u' (by decide) _),
    removeAll_cons_nomatch _ _ _ (startsWithL_fim_ne 'f' (by decide) _),
    removeAll_cons_nomatch _ _ _ (startsWithL_fim_ne 'f' (by decide) _),
    removeAll_cons_nomatch _ _ _ (startsWithL_fim_ne 'i' (by decide) _),
    removeAll_cons_nomatch _ _ _ (startsWithL_fim_ne 'x' (by decide) _),
    removeAll_cons_nomatch _ _ _ (startsWithL_fim_ne '|' (by decide) _),
    removeAll_cons_nomatch _ _ _ (startsWithL_fim_ne '>' (by decide) _)]
  simp [sufMarker]

theorem removeAll_fim_text (l r : List Char) (hl : l.all (· != '<') = true) :
    removeAll fimMarker (l ++ r) = l ++ removeAll fimMarker r :=
  removeAll_text_skip ['|', 'f', 'i', 'm', '|', '>'] l r hl

theorem removeAll_suf_text (l r : List Char) (hl : l.all (· != '<') = true) :
    removeAll sufMarker (l ++ r) = l ++ removeAll sufMarker r :=
  removeAll_text_skip ['|', 's', 'u', 'f', 'f', 'i', 'x', '|', '>'] l r hl

theorem removeAll_fim_render (bs : List FimBlock) (h : bs.all goodBlock = true) :
    removeAll fimMarker (renderBlocks bs) = renderBlocks (bs.filter notFim) := by
  induction bs with
  | nil => simp [renderBlocks, removeAll_nil]
  | cons b rest ih =>
    have hb : goodBlock b = true := List.all_eq_true.mp h b (List.mem_cons_self b rest)
    have hrest : rest.all goodBlock = true :=
      List.all_eq_true.mpr fun x hx => List.all_eq_true.mp h x (List.mem_cons_of_mem b hx)
    cases b with
    | text s =>
      rw [renderBlocks, removeAll_fim_text s _ hb, ih hrest]
      simp [List.filter, notFim, renderBlocks]
    | fim =>
      rw [renderBlocks, removeAll_marker_head fimMarker _ (by decide), ih hrest]
      simp [List.filter, notFim]
    | suffixTok =>
      rw [renderBlocks, removeAll_fim_skip_suf, ih hrest]
      simp [List.filter, notFim, renderBlocks]

theorem removeAll_suf_render (bs : List FimBlock) (h : bs.all goodBlock = true)
    (hnf : bs.all notFim = true) :
    removeAll sufMarker (renderBlocks bs) = renderBlocks (bs.filter notSuf) := by
  induction bs with
  | nil => simp [renderBlocks, removeAll_nil]
  | cons b rest ih =>
    have hb : goodBlock b = true := List.all_eq_true.mp h b (List.mem_cons_self b rest)
    have hrest : rest.all goodBlock = true :=
      List.all_eq_true.mpr fun x hx => List.all_eq_true.mp h x (List.mem_cons_of_mem b hx)
    have hnfrest : rest.all notFim = true :=
      List.all_eq_true.mpr fun x hx => List.all_eq_true.mp hnf x (List.mem_cons_of_mem b hx)
    cases b with
    | text s =>
      rw [renderBlocks, removeAll_suf_text s _ hb, ih hrest hnfrest]
      simp [List.filter, notSuf, renderBlocks]
    | fim =>
      have := List.all_eq_true.mp hnf FimBlock.fim (List.mem_cons_self _ rest)
      simp [notFim] at this
    | suffixTok =>
      rw [renderBlocks, removeAll_marker_head sufMarker _ (by decide), ih hrest hnfrest]
      simp [List.filter, notSuf]

theorem render_text_no_lt (bs : List FimBlock) (h : bs.all goodBlock = true)
    (ht : bs.all isText = true) : '<' ∉ renderBlocks bs := by
  induction bs with
  | nil =>
    simp [renderBlocks]
  | cons b rest ih =>
    have hrest : rest.all goodBlock = true :=
      List.all_eq_true.mpr fun x hx => List.all_eq_true.mp h x (List.mem_cons_of_mem b hx)
    have htrest : rest.all isText = true :=
      List.all_eq_true.mpr fun x hx => List.all_eq_true.mp ht x (List.mem_cons_of_mem b hx)
    cases b with
    | text s =>
      have hb : goodBlock (FimBlock.text s) = true :=
        List.all_eq_true.mp h _ (List.mem_cons_self _ rest)
      rw [renderBlocks]
      intro hmem
      rcases List.mem_append.mp hmem with hs | hr
      · have := List.all_eq_true.mp hb '<' hs
        simp at this
      · exact ih hrest htrest hr
    | fim =>
      have := List.all_eq_true.mp ht FimBlock.fim (List.mem_cons_self _ rest)
      simp [isText] at this
    | suffixTok =>
      have := List.all_eq_true.mp ht FimBlock.suffixTok (List.mem_cons_self _ rest)
      simp [isText] at this

theorem all_filter_of_all (p q : FimBlock → Bool) (bs : List FimBlock)
    (h : bs.all p = true) : (bs.filter q).all p = true :=
  List.all_eq_true.mpr fun x hx => List.all_eq_true.mp h x (List.mem_of_mem_filter hx)

/-- C9 amended: for every raw model output that decomposes into whole
marker tokens and `<`-free text chunks, the post-processed result
contains no occurrence of `<|fim|>` and none of `<|suffix|>`. -/
theorem c9_markers_stripped_for_token_outputs (bs : List FimBlock)
    (h : bs.all goodBlock = true) :
    ¬ fimMarker <:+: postProcess (renderBlocks bs) ∧
    ¬ sufMarker <:+: postProcess (renderBlocks bs) := by
  have hnf : (bs.filter notFim).all notFim = true :=
    List.all_eq_true.mpr fun x hx => List.of_mem_filter hx
  have h1 : removeAll fimMarker (renderBlocks bs) = renderBlocks (bs.filter notFim) :=
    removeAll_fim_render bs h
  have h2 : removeAll sufMarker (renderBlocks (bs.filter notFim)) =
      renderBlocks ((bs.filter notFim).filter notSuf) :=
    removeAll_suf_render _ (all_filter_of_all _ _ _ h) hnf
  have htext : ((bs.filter notFim).filter notSuf).all isText = true := by
    refine List.all_eq_true.mpr fun x hx => ?_
    have hs : notSuf x = true := List.of_mem_filter hx
    have hf : notFim x = true := List.of_mem_filter (List.mem_of_mem_filter hx)
    cases x with
    | text s => rfl
    | fim => exact absurd hf (by simp [notFim])
    | suffixTok => exact absurd hs (by simp [notSuf])
  have hlt : '<' ∉ renderBlocks ((bs.filter notFim).filter notSuf) :=
    render_text_no_lt _ (all_filter_of_all _ _ _ (all_filter_of_all _ _ _ h)) htext
  have hpost : '<' ∉ postProcess (renderBlocks bs) := by
    rw [postProcess, h1, h2, fixBadCompletionStart]
    intro hmem
    exact hlt ((List.dropWhile_sublist _).subset hmem)
  constructor
  · intro hinf
    exact hpost (hinf.subset (by decide))
  · intro hinf
    exact hpost (hinf.subset (by decide))

/-- Witness for C9 on a concrete whole-token decomposition. -/
theorem c9_markers_stripped_for_token_outputs_witness :
    ([FimBlock.text ['a', 'b'], FimBlock.fim, FimBlock.text ['c'],
      FimBlock.suffixTok].all goodBlock = true) ∧
    ¬ fimMarker <:+: postProcess (renderBlocks
      [FimBlock.text ['a', 'b'], FimBlock.fim, FimBlock.text ['c'], FimBlock.suffixTok]) ∧
    ¬ sufMarker <:+: postProcess (renderBlocks
      [FimBlock.text ['a', 'b'], FimBlock.fim, FimBlock.text ['c'], FimBlock.suffixTok]) := by
  refine ⟨by decide,
    (c9_markers_stripped_for_token_outputs _ (by decide)).1,
    (c9_markers_stripped_for_token_outputs _ (by decide)).2⟩

/-- C9 counterexample: on the raw output `<|f<|suffix|>im|>`, removing
all `<|fim|>` occurrences (none) and then all `<|suffix|>` occurrences
splices the surrounding fragments into a fresh `<|fim|>`, so the
post-processed result still contains the response marker. -/
theorem c9_marker_survives_counterexample :
    postProcess (['<', '|', 'f'] ++ sufMarker ++ ['i', 'm', '|', '>']) = fimMarker ∧
    fimMarker <:+: postProcess (['<', '|', 'f'] ++ sufMarker ++ ['i', 'm', '|', '>']) := by
  have tailFim : removeAll fimMarker ['i', 'm', '|', '>'] = ['i', 'm', '|', '>'] := by
    rw [removeAll_cons_nomatch _ _ _ (startsWithL_fim_ne 'i' (by decide) _),
      removeAll_cons_nomatch _ _ _ (startsWithL_fim_ne 'm' (by decide) _),
      removeAll_cons_nomatch _ _ _ (startsWithL_fim_ne '|' (by decide) _),
      removeAll_cons_nomatch _ _ _ (startsWithL_fim_ne '>' (by decide) _),
      removeAll_nil]
  have tailSuf : removeAll sufMarker ['i', 'm', '|', '>'] = ['i', 'm', '|', '>'] := by
    rw [removeAll_cons_nomatch _ _ _ (startsWithL_suf_ne 'i' (by decide) _),
      removeAll_cons_nomatch _ _ _ (startsWithL_suf_ne 'm' (by decide) _),
      removeAll_cons_nomatch _ _ _ (startsWithL_suf_ne '|' (by decide) _),
      removeAll_cons_nomatch _ _ _ (startsWithL_suf_ne '>' (by decide) _),
      removeAll_nil]
  have hA : removeAll fimMarker (['<', '|', 'f'] ++ sufMarker ++ ['i', 'm', '|', '>']) =
      ['<', '|', 'f'] ++ sufMarker ++ ['i', 'm', '|', '>'] := by
    show removeAll fimMarker ('<' :: '|' :: 'f' :: (sufMarker ++ ['i', 'm', '|', '>'])) = _
    rw [removeAll_cons_nomatch _ _ _ (by decide),
      removeAll_cons_nomatch _ _ _ (startsWithL_fim_ne '|' (by decide) _),
      removeAll_cons_nomatch _ _ _ (startsWithL_fim_ne 'f' (by decide) _),
      removeAll_fim_skip_suf, tailFim]
    rfl
  have hB : removeAll sufMarker (['<', '|', 'f'] ++ sufMarker ++ ['i', 'm', '|', '>']) =
      fimMarker := by
    show removeAll sufMarker ('<' :: '|' :: 'f' :: (sufMarker ++ ['i', 'm', '|', '>'])) = _
    rw [removeAll_cons_nomatch _ _ _ (by decide),
      removeAll_cons_nomatch _ _ _ (startsWithL_suf_ne '|' (by decide) _),
      removeAll_cons_nomatch _ _ _ (startsWithL_suf_ne 'f' (by decide) _),
      removeAll_marker_head sufMarker _ (by decide), tailSuf]
    rfl
  have hfull : postProcess (['<', '|', 'f'] ++ sufMarker ++ ['i', 'm', '|', '>']) = fimMarker := by
    rw [postProcess, hA, hB]
    decide
  refine ⟨hfull, ?_⟩
  rw [hfull]
